import Mathlib

/-!
Verification of the Ising-model simulation engine and its driver.

The driver class `Ising` is embedded from `src/ising.py`.  The simulation
engine class `Lattice` (file `lattice.py`, imported by `src/ising.py` but not
present under `src/`) is modelled from the specification: its grid, periodic
neighbour coupling, Metropolis sweep, incremental energy maintenance and
running fluctuation estimators follow sections 3, 4 and 7 of the spec.
Floating point numbers are modelled by real numbers; the random sources are
explicit parameters (a boolean per-cell stream for the "random" initial grid
and one real draw per trial move for the Metropolis acceptance test).
-/

namespace IsingModel

/-- Modelled from the spec: the error raised at construction for non-positive
dimensions or non-positive temperature (spec 7); `lattice.py` is not in `src/`. -/
inductive InvalidConfiguration where
  | invalid : InvalidConfiguration
deriving DecidableEq

/-- Modelled from the spec: the `Lattice` entity of spec section 3 (the class
`Lattice` of `lattice.py`, which is not in `src/`).  `spins` is the 2-D grid
(only indices below `rows`/`cols` are ever read), `_gen` the generation
counter, `energy` and `mag_mom` the incrementally maintained Hamiltonian value
and total spin sum, and `eSum`/`e2Sum`/`mSum`/`m2Sum`/`count` the running
accumulators over the per-generation samples used by the estimators. -/
structure Lattice where
  rows : ℕ
  cols : ℕ
  temp : ℝ
  j : ℝ × ℝ
  field : ℝ
  spins : ℕ → ℕ → ℤ
  _gen : ℕ
  energy : ℝ
  mag_mom : ℝ
  eSum : ℝ
  e2Sum : ℝ
  mSum : ℝ
  m2Sum : ℝ
  count : ℕ

/-- Write value `v` into cell `(a, b)` of a grid. -/
def updateGrid (g : ℕ → ℕ → ℤ) (a b : ℕ) (v : ℤ) : ℕ → ℕ → ℤ :=
  fun i j => if i = a ∧ j = b then v else g i j

/-- Sum of all spins of an `r × c` grid (the magnetization / magnetic moment). -/
def gridSum (r c : ℕ) (g : ℕ → ℕ → ℤ) : ℝ :=
  ∑ p in Finset.range r ×ˢ Finset.range c, (g p.1 p.2 : ℝ)

/-- One cell's bond contribution to the Hamiltonian: its spin times the
coupling-weighted spins of its periodic right and down neighbours (each bond
counted once per direction). -/
def hamTerm (r c : ℕ) (jr jc : ℝ) (g : ℕ → ℕ → ℤ) (p : ℕ × ℕ) : ℝ :=
  (g p.1 p.2 : ℝ) * (jr * (g ((p.1 + 1) % r) p.2 : ℝ) + jc * (g p.1 ((p.2 + 1) % c) : ℝ))

/-- Modelled from the spec: the full-scan Hamiltonian of spec 4.1 — row-neighbour
pairs weighted by the row coupling, column-neighbour pairs by the column
coupling, each spin additionally contributing `-field * spin`. -/
def hamiltonian (r c : ℕ) (jr jc field : ℝ) (g : ℕ → ℕ → ℤ) : ℝ :=
  -(∑ p in Finset.range r ×ˢ Finset.range c, hamTerm r c jr jc g p) - field * gridSum r c g

/-- Coupling-weighted sum of the four periodic neighbours of cell `(i, j)`. -/
def nbrSum (r c : ℕ) (jr jc : ℝ) (g : ℕ → ℕ → ℤ) (i j : ℕ) : ℝ :=
  jr * ((g ((i + 1) % r) j : ℝ) + (g ((i + r - 1) % r) j : ℝ))
    + jc * ((g i ((j + 1) % c) : ℝ) + (g i ((j + c - 1) % c) : ℝ))

/-- Modelled from the spec: the energy change of flipping cell `(i, j)`,
`ΔE = 2·s·(coupling-weighted neighbour sum + field)` (spec 4.2 item 2). -/
def dE (r c : ℕ) (jr jc field : ℝ) (g : ℕ → ℕ → ℤ) (i j : ℕ) : ℝ :=
  2 * (g i j : ℝ) * (nbrSum r c jr jc g i j + field)

/-- Modelled from the spec: one Metropolis trial move on cell `(i, j)` given the
uniform draw `u`, acting on a (grid, energy, magnetization) triple: accept
unconditionally when `ΔE ≤ 0`, otherwise accept iff `u < exp (-ΔE / temp)`;
on acceptance flip the spin and update energy by `+ΔE`, magnetization by `-2s`
(spec 4.2 items 1-5). -/
noncomputable def trialAt (l : Lattice) (u : ℝ) (i j : ℕ)
    (st : (ℕ → ℕ → ℤ) × ℝ × ℝ) : (ℕ → ℕ → ℤ) × ℝ × ℝ :=
  open Classical in
  if dE l.rows l.cols l.j.1 l.j.2 l.field st.1 i j ≤ 0
      ∨ u < Real.exp (-(dE l.rows l.cols l.j.1 l.j.2 l.field st.1 i j) / l.temp) then
    (updateGrid st.1 i j (-(st.1 i j)),
      st.2.1 + dE l.rows l.cols l.j.1 l.j.2 l.field st.1 i j,
      st.2.2 - 2 * (st.1 i j : ℝ))
  else st

/-- Modelled from the spec: the state after the first `t` trial moves of a sweep,
processed sequentially in row-major order (trial `t` acts on cell
`(t / cols, t % cols)` and consumes exactly the draw `u t`). -/
noncomputable def trials (l : Lattice) (u : ℕ → ℝ) : ℕ → (ℕ → ℕ → ℤ) × ℝ × ℝ
  | 0 => (l.spins, l.energy, l.mag_mom)
  | t + 1 => trialAt l (u t) (t / l.cols) (t % l.cols) (trials l u t)

/-- Modelled from the spec: one full Metropolis sweep (`Lattice.update()` in the
source, `step()` in the spec): `rows × cols` trial moves, then increment the
generation by 1, then fold the post-sweep (energy, magnetization) sample into
the running accumulators (spec 4.2). -/
noncomputable def Lattice.update (l : Lattice) (u : ℕ → ℝ) : Lattice :=
  { l with
    spins := (trials l u (l.rows * l.cols)).1
    energy := (trials l u (l.rows * l.cols)).2.1
    mag_mom := (trials l u (l.rows * l.cols)).2.2
    _gen := l._gen + 1
    eSum := l.eSum + (trials l u (l.rows * l.cols)).2.1
    e2Sum := l.e2Sum + (trials l u (l.rows * l.cols)).2.1 ^ 2
    mSum := l.mSum + (trials l u (l.rows * l.cols)).2.2
    m2Sum := l.m2Sum + (trials l u (l.rows * l.cols)).2.2 ^ 2
    count := l.count + 1 }

/-- `k` successive sweeps; sweep number `n` uses the draw stream `U n`. -/
noncomputable def Lattice.updateN (U : ℕ → ℕ → ℝ) : ℕ → Lattice → Lattice
  | 0, l => l
  | k + 1, l => (Lattice.updateN U k l).update (U k)

/-- Modelled from the spec: the initial grid (spec 4.1) — "up" sets every cell
to +1, "down" sets every cell to -1, any other mode fills each cell
independently from the boolean random source. -/
def initGrid (init_state : String) (rand : ℕ → ℕ → Bool) : ℕ → ℕ → ℤ :=
  if init_state = "up" then fun _ _ => 1
  else if init_state = "down" then fun _ _ => -1
  else fun i j => if rand i j then 1 else -1

/-- The lattice produced by a construction that passed validation: energy and
magnetization computed once by the full scan, generation 0, and the
accumulators seeded with that generation-0 sample (count 1). -/
def mkRaw (r c : ℕ) (temp jr jc field : ℝ) (init_state : String)
    (rand : ℕ → ℕ → Bool) : Lattice :=
  { rows := r
    cols := c
    temp := temp
    j := (jr, jc)
    field := field
    spins := initGrid init_state rand
    _gen := 0
    energy := hamiltonian r c jr jc field (initGrid init_state rand)
    mag_mom := gridSum r c (initGrid init_state rand)
    eSum := hamiltonian r c jr jc field (initGrid init_state rand)
    e2Sum := hamiltonian r c jr jc field (initGrid init_state rand) ^ 2
    mSum := gridSum r c (initGrid init_state rand)
    m2Sum := gridSum r c (initGrid init_state rand) ^ 2
    count := 1 }

/-- Modelled from the spec: `Lattice` construction (spec 4.1 and 7): fails with
`InvalidConfiguration` when a dimension is ≤ 0 or the temperature is ≤ 0,
otherwise produces the fully initialized lattice. -/
noncomputable def mkLattice (rows cols : ℤ) (temp jr jc field : ℝ)
    (init_state : String) (rand : ℕ → ℕ → Bool) : Except InvalidConfiguration Lattice :=
  open Classical in
  if rows ≤ 0 ∨ cols ≤ 0 ∨ temp ≤ 0 then Except.error InvalidConfiguration.invalid
  else Except.ok (mkRaw rows.toNat cols.toNat temp jr jc field init_state rand)

/-- Modelled from the spec: running mean energy per spin (spec 4.4). -/
noncomputable def Lattice.mean_energy (l : Lattice) : ℝ :=
  l.eSum / (l.count : ℝ) / ((l.rows : ℝ) * (l.cols : ℝ))

/-- Modelled from the spec: running mean magnetization per spin (spec 4.4). -/
noncomputable def Lattice.magnet (l : Lattice) : ℝ :=
  l.mSum / (l.count : ℝ) / ((l.rows : ℝ) * (l.cols : ℝ))

/-- Modelled from the spec: fluctuation estimator
`(⟨E²⟩ − ⟨E⟩²) / (N · temp²)` over the unnormalized energy samples (spec 4.4). -/
noncomputable def Lattice.specific_heat (l : Lattice) : ℝ :=
  (l.e2Sum / (l.count : ℝ) - (l.eSum / (l.count : ℝ)) ^ 2)
    / (((l.rows : ℝ) * (l.cols : ℝ)) * l.temp ^ 2)

/-- Modelled from the spec: fluctuation estimator
`(⟨M²⟩ − ⟨M⟩²) / (N · temp)` over the magnetization samples (spec 4.4). -/
noncomputable def Lattice.susceptibility (l : Lattice) : ℝ :=
  (l.m2Sum / (l.count : ℝ) - (l.mSum / (l.count : ℝ)) ^ 2)
    / (((l.rows : ℝ) * (l.cols : ℝ)) * l.temp)

/-- The driver class `Ising` of `src/ising.py`: it owns a lattice, the saved
`_init_state` string, the energy and magnetic moment cached at construction
time, and the four history lists filled by `update`. -/
structure Ising where
  lattice : Lattice
  _init_state : String
  _energy : ℝ
  _mag_mom : ℝ
  mean_energy_hist : List ℝ
  magnet_hist : List ℝ
  specific_heat_hist : List ℝ
  susceptibility_hist : List ℝ

/-- `Ising.__init__` (src/ising.py lines 12-35): normalize the saved
`_init_state` to "up", "down" or "random", construct the lattice passing the
original `init_state` value unchanged, cache `lattice.energy` and
`lattice.mag_mom`, and start with four empty history lists.  A construction
failure of the lattice propagates. -/
noncomputable def mkIsing (rows cols : ℤ) (temp jr jc field : ℝ) (init_state : String)
    (rand : ℕ → ℕ → Bool) : Except InvalidConfiguration Ising :=
  match mkLattice rows cols temp jr jc field init_state rand with
  | Except.error e => Except.error e
  | Except.ok lat =>
      Except.ok
        { lattice := lat
          _init_state :=
            if init_state = "up" then "up"
            else if init_state = "down" then "down"
            else "random"
          _energy := lat.energy
          _mag_mom := lat.mag_mom
          mean_energy_hist := []
          magnet_hist := []
          specific_heat_hist := []
          susceptibility_hist := [] }

/-- Property `Ising.init_state` (src/ising.py lines 51-53). -/
def Ising.init_state (I : Ising) : String := I._init_state

/-- Property `Ising.gen` (src/ising.py lines 55-57): reads the lattice's
generation counter. -/
def Ising.gen (I : Ising) : ℕ := I.lattice._gen

/-- Property `Ising.energy` (src/ising.py lines 59-61): reads the lattice's
current energy. -/
def Ising.energy (I : Ising) : ℝ := I.lattice.energy

/-- Property `Ising.mag_mom` (src/ising.py lines 63-65): reads the lattice's
current magnetic moment. -/
def Ising.mag_mom (I : Ising) : ℝ := I.lattice.mag_mom

/-- `Ising.update` (src/ising.py lines 67-72): append the lattice's current
`mean_energy`, `magnet`, `specific_heat` and `susceptibility` to the four
history lists, then advance the lattice by one sweep. -/
noncomputable def Ising.update (I : Ising) (u : ℕ → ℝ) : Ising :=
  { I with
    mean_energy_hist := I.mean_energy_hist ++ [I.lattice.mean_energy]
    magnet_hist := I.magnet_hist ++ [I.lattice.magnet]
    specific_heat_hist := I.specific_heat_hist ++ [I.lattice.specific_heat]
    susceptibility_hist := I.susceptibility_hist ++ [I.lattice.susceptibility]
    lattice := I.lattice.update u }

/-- `k` successive driver update calls; call number `n` uses the stream `U n`. -/
noncomputable def Ising.updateN (U : ℕ → ℕ → ℝ) : ℕ → Ising → Ising
  | 0, I => I
  | k + 1, I => (Ising.updateN U k I).update (U k)

/-! ### Modular-index arithmetic for the periodic boundary -/

theorem succ_mod_ne {r a : ℕ} (hr : 2 ≤ r) (ha : a < r) : (a + 1) % r ≠ a := by
  rcases Nat.lt_or_ge (a + 1) r with h | h
  · rw [Nat.mod_eq_of_lt h]; omega
  · have h1 : a + 1 = r := by omega
    rw [h1, Nat.mod_self]; omega

theorem pred_mod_ne {r a : ℕ} (hr : 2 ≤ r) (ha : a < r) : (a + r - 1) % r ≠ a := by
  rcases Nat.eq_zero_or_pos a with h0 | h0
  · subst h0
    have h1 : 0 + r - 1 = r - 1 := by omega
    rw [h1, Nat.mod_eq_of_lt (by omega)]; omega
  · have h1 : a + r - 1 = (a - 1) + r := by omega
    rw [h1, Nat.add_mod_right, Nat.mod_eq_of_lt (by omega)]; omega

theorem pred_mod_succ {r a : ℕ} (ha : a < r) : ((a + r - 1) % r + 1) % r = a := by
  rcases Nat.eq_zero_or_pos a with h0 | h0
  · subst h0
    have e : (0 + r - 1) % r = r - 1 := by
      rw [(by omega : 0 + r - 1 = r - 1)]
      exact Nat.mod_eq_of_lt (by omega)
    rw [e, (by omega : r - 1 + 1 = r), Nat.mod_self]
  · have e : (a + r - 1) % r = a - 1 := by
      rw [(by omega : a + r - 1 = (a - 1) + r), Nat.add_mod_right]
      exact Nat.mod_eq_of_lt (by omega)
    rw [e, (by omega : a - 1 + 1 = a)]
    exact Nat.mod_eq_of_lt ha

theorem succ_mod_inj {r a x : ℕ} (hx : x < r) (h : (x + 1) % r = a) :
    x = (a + r - 1) % r := by
  rcases Nat.lt_or_ge (x + 1) r with h1 | h1
  · rw [Nat.mod_eq_of_lt h1] at h
    subst h
    have h2 : x + 1 + r - 1 = x + r := by omega
    rw [h2, Nat.add_mod_right, Nat.mod_eq_of_lt hx]
  · have h2 : x + 1 = r := by omega
    rw [h2, Nat.mod_self] at h
    subst h
    have h3 : 0 + r - 1 = r - 1 := by omega
    rw [h3, Nat.mod_eq_of_lt (by omega)]
    omega

/-! ### Grid update and magnetization -/

theorem updateGrid_self (g : ℕ → ℕ → ℤ) (a b : ℕ) (v : ℤ) :
    updateGrid g a b v a b = v := by
  simp [updateGrid]

theorem updateGrid_other (g : ℕ → ℕ → ℤ) (a b : ℕ) (v : ℤ) {i j : ℕ}
    (h : ¬(i = a ∧ j = b)) : updateGrid g a b v i j = g i j := by
  simp only [updateGrid, if_neg h]

theorem gridSum_updateGrid {r c a b : ℕ} (g : ℕ → ℕ → ℤ) (v : ℤ)
    (ha : a < r) (hb : b < c) :
    gridSum r c (updateGrid g a b v) = gridSum r c g + (v : ℝ) - (g a b : ℝ) := by
  classical
  have hmem : ((a, b) : ℕ × ℕ) ∈ Finset.range r ×ˢ Finset.range c :=
    Finset.mem_product.mpr ⟨Finset.mem_range.mpr ha, Finset.mem_range.mpr hb⟩
  unfold gridSum
  rw [← Finset.sum_erase_add _ _ hmem, ← Finset.sum_erase_add _ _ hmem]
  have hcong :
      ∑ p in (Finset.range r ×ˢ Finset.range c).erase (a, b),
          (updateGrid g a b v p.1 p.2 : ℝ)
        = ∑ p in (Finset.range r ×ˢ Finset.range c).erase (a, b), (g p.1 p.2 : ℝ) := by
    refine Finset.sum_congr rfl ?_
    intro p hp
    have hpne : p ≠ (a, b) := Finset.ne_of_mem_erase hp
    have : ¬(p.1 = a ∧ p.2 = b) := by
      intro hq
      exact hpne (Prod.ext hq.1 hq.2)
    rw [updateGrid_other g a b v this]
  rw [hcong, updateGrid_self]
  ring

/-! ### The incremental energy update matches the Hamiltonian -/

theorem hamiltonian_flip {r c a b : ℕ} (jr jc field : ℝ) (g : ℕ → ℕ → ℤ)
    (hr : 2 ≤ r) (hc : 2 ≤ c) (ha : a < r) (hb : b < c) :
    hamiltonian r c jr jc field (updateGrid g a b (-(g a b)))
      = hamiltonian r c jr jc field g + dE r c jr jc field g a b := by
  classical
  have e1 : (a + 1) % r ≠ a := succ_mod_ne hr ha
  have e2 : (b + 1) % c ≠ b := succ_mod_ne hc hb
  have e3 : (a + r - 1) % r ≠ a := pred_mod_ne hr ha
  have e4 : (b + c - 1) % c ≠ b := pred_mod_ne hc hb
  have e5 : ((a + r - 1) % r + 1) % r = a := pred_mod_succ ha
  have e6 : ((b + c - 1) % c + 1) % c = b := pred_mod_succ hb
  set g' := updateGrid g a b (-(g a b)) with hg'
  set S := Finset.range r ×ˢ Finset.range c with hS
  set D : Finset (ℕ × ℕ) :=
    insert ((a + r - 1) % r, b) (insert (a, (b + c - 1) % c) {(a, b)}) with hD
  have hDS : D ⊆ S := by
    intro p hp
    simp only [hD, Finset.mem_insert, Finset.mem_singleton] at hp
    rcases hp with h | h | h <;> subst h <;>
      exact Finset.mem_product.mpr
        ⟨Finset.mem_range.mpr (by first | exact Nat.mod_lt _ (by omega) | omega),
         Finset.mem_range.mpr (by first | exact Nat.mod_lt _ (by omega) | omega)⟩
  have hzero : ∀ p ∈ S, p ∉ D →
      hamTerm r c jr jc g' p - hamTerm r c jr jc g p = 0 := by
    intro p hpS hpD
    obtain ⟨hp1, hp2⟩ := Finset.mem_product.mp hpS
    have hp1r : p.1 < r := Finset.mem_range.mp hp1
    have hp2c : p.2 < c := Finset.mem_range.mp hp2
    simp only [hD, Finset.mem_insert, Finset.mem_singleton] at hpD
    push_neg at hpD
    obtain ⟨hne1, hne2, hne0⟩ := hpD
    have k0 : ¬(p.1 = a ∧ p.2 = b) := fun hq => hne0 (Prod.ext hq.1 hq.2)
    have k1 : ¬((p.1 + 1) % r = a ∧ p.2 = b) := fun hq =>
      hne1 (Prod.ext (succ_mod_inj hp1r hq.1) hq.2)
    have k2 : ¬(p.1 = a ∧ (p.2 + 1) % c = b) := fun hq =>
      hne2 (Prod.ext hq.1 (succ_mod_inj hp2c hq.2))
    unfold hamTerm
    rw [hg', updateGrid_other g a b _ k0, updateGrid_other g a b _ k1,
      updateGrid_other g a b _ k2]
    ring
  have hkey : ∑ p in S, hamTerm r c jr jc g' p
      = ∑ p in S, hamTerm r c jr jc g p
        + (-2 * (g a b : ℝ)
            * (jr * ((g ((a + 1) % r) b : ℝ) + (g ((a + r - 1) % r) b : ℝ))
              + jc * ((g a ((b + 1) % c) : ℝ) + (g a ((b + c - 1) % c) : ℝ)))) := by
    have hsub : ∑ p in S, hamTerm r c jr jc g' p - ∑ p in S, hamTerm r c jr jc g p
        = ∑ p in D, (hamTerm r c jr jc g' p - hamTerm r c jr jc g p) := by
      rw [← Finset.sum_sub_distrib]
      exact (Finset.sum_subset hDS hzero).symm
    have hd1 : ((a + r - 1) % r, b) ∉
        (insert ((a : ℕ), (b + c - 1) % c) ({((a : ℕ), (b : ℕ))} : Finset (ℕ × ℕ))) := by
      simp only [Finset.mem_insert, Finset.mem_singleton]
      push_neg
      constructor
      · intro hq
        exact e3 (congrArg Prod.fst hq)
      · intro hq
        exact e3 (congrArg Prod.fst hq)
    have hd2 : ((a : ℕ), (b + c - 1) % c) ∉ ({((a : ℕ), (b : ℕ))} : Finset (ℕ × ℕ)) := by
      simp only [Finset.mem_singleton]
      intro hq
      exact e4 (congrArg Prod.snd hq)
    have hDsum : ∑ p in D, (hamTerm r c jr jc g' p - hamTerm r c jr jc g p)
        = -2 * (g a b : ℝ)
            * (jr * ((g ((a + 1) % r) b : ℝ) + (g ((a + r - 1) % r) b : ℝ))
              + jc * ((g a ((b + 1) % c) : ℝ) + (g a ((b + c - 1) % c) : ℝ))) := by
      rw [hD, Finset.sum_insert hd1, Finset.sum_insert hd2, Finset.sum_singleton]
      simp only [hamTerm, hg', updateGrid, e5, e6]
      simp only [e1, e2, e3, e4, and_true, true_and, and_false, false_and, if_false,
        if_true, ite_false, ite_true, and_self, Int.cast_neg]
      ring
    linarith [hsub, hDsum]
  have hgs : gridSum r c g' = gridSum r c g + ((-(g a b) : ℤ) : ℝ) - ((g a b : ℤ) : ℝ) := by
    rw [hg']
    exact gridSum_updateGrid g _ ha hb
  unfold hamiltonian
  rw [hkey, hgs]
  unfold dE nbrSum
  simp only [Int.cast_neg]
  ring

/-- The consistency invariant of spec section 3: the incrementally maintained
energy and magnetic moment equal the full-scan values over the current grid. -/
def consistent (l : Lattice) : Prop :=
  l.energy = hamiltonian l.rows l.cols l.j.1 l.j.2 l.field l.spins
    ∧ l.mag_mom = gridSum l.rows l.cols l.spins

theorem trials_consistent (l : Lattice) (u : ℕ → ℝ)
    (hr : 2 ≤ l.rows) (hc : 2 ≤ l.cols)
    (hE : l.energy = hamiltonian l.rows l.cols l.j.1 l.j.2 l.field l.spins)
    (hM : l.mag_mom = gridSum l.rows l.cols l.spins) :
    ∀ t, t ≤ l.rows * l.cols →
      (trials l u t).2.1 = hamiltonian l.rows l.cols l.j.1 l.j.2 l.field (trials l u t).1
        ∧ (trials l u t).2.2 = gridSum l.rows l.cols (trials l u t).1 := by
  intro t
  induction t with
  | zero => intro _; exact ⟨hE, hM⟩
  | succ t ih =>
    intro ht
    obtain ⟨ihE, ihM⟩ := ih (by omega)
    have hi : t / l.cols < l.rows := (Nat.div_lt_iff_lt_mul (by omega)).mpr (by omega)
    have hj : t % l.cols < l.cols := Nat.mod_lt _ (by omega)
    have hstep : trials l u (t + 1)
        = trialAt l (u t) (t / l.cols) (t % l.cols) (trials l u t) := rfl
    rw [hstep]
    unfold trialAt
    split
    · refine ⟨?_, ?_⟩
      · show (trials l u t).2.1 + dE l.rows l.cols l.j.1 l.j.2 l.field (trials l u t).1
            (t / l.cols) (t % l.cols) = _
        rw [ihE]
        exact (hamiltonian_flip l.j.1 l.j.2 l.field (trials l u t).1 hr hc hi hj).symm
      · show (trials l u t).2.2
            - 2 * ((trials l u t).1 (t / l.cols) (t % l.cols) : ℝ) = _
        rw [ihM, gridSum_updateGrid _ _ hi hj]
        push_cast
        ring
    · exact ⟨ihE, ihM⟩

theorem update_consistent (l : Lattice) (u : ℕ → ℝ)
    (hr : 2 ≤ l.rows) (hc : 2 ≤ l.cols) (h : consistent l) :
    consistent (l.update u) :=
  trials_consistent l u hr hc h.1 h.2 (l.rows * l.cols) le_rfl

theorem updateN_rows (U : ℕ → ℕ → ℝ) (k : ℕ) (l : Lattice) :
    (Lattice.updateN U k l).rows = l.rows := by
  induction k with
  | zero => rfl
  | succ k ih => exact ih

theorem updateN_cols (U : ℕ → ℕ → ℝ) (k : ℕ) (l : Lattice) :
    (Lattice.updateN U k l).cols = l.cols := by
  induction k with
  | zero => rfl
  | succ k ih => exact ih

theorem updateN_temp (U : ℕ → ℕ → ℝ) (k : ℕ) (l : Lattice) :
    (Lattice.updateN U k l).temp = l.temp := by
  induction k with
  | zero => rfl
  | succ k ih => exact ih

theorem updateN_consistent (U : ℕ → ℕ → ℝ) (k : ℕ) (l : Lattice)
    (hr : 2 ≤ l.rows) (hc : 2 ≤ l.cols) (h : consistent l) :
    consistent (Lattice.updateN U k l) := by
  induction k with
  | zero => exact h
  | succ k ih =>
    have hr' : 2 ≤ (Lattice.updateN U k l).rows := by rw [updateN_rows]; exact hr
    have hc' : 2 ≤ (Lattice.updateN U k l).cols := by rw [updateN_cols]; exact hc
    exact update_consistent _ (U k) hr' hc' ih

theorem mkRaw_consistent (r c : ℕ) (temp jr jc field : ℝ) (st : String)
    (rand : ℕ → ℕ → Bool) : consistent (mkRaw r c temp jr jc field st rand) :=
  ⟨rfl, rfl⟩

/-! ### Generation counter -/

theorem update_gen (l : Lattice) (u : ℕ → ℝ) : (l.update u)._gen = l._gen + 1 := rfl

theorem updateN_gen (U : ℕ → ℕ → ℝ) (k : ℕ) (l : Lattice) :
    (Lattice.updateN U k l)._gen = l._gen + k := by
  induction k with
  | zero => rfl
  | succ k ih =>
    show (Lattice.updateN U k l)._gen + 1 = l._gen + (k + 1)
    omega

/-! ### Spins stay in {-1, +1} -/

theorem initGrid_pm (st : String) (rand : ℕ → ℕ → Bool) (i j : ℕ) :
    initGrid st rand i j = 1 ∨ initGrid st rand i j = -1 := by
  unfold initGrid
  by_cases h1 : st = "up"
  · simp [h1]
  · by_cases h2 : st = "down"
    · simp [h1, h2]
    · by_cases h3 : rand i j <;> simp [h1, h2, h3]

theorem trials_pm (l : Lattice) (u : ℕ → ℝ)
    (h : ∀ i j, l.spins i j = 1 ∨ l.spins i j = -1) :
    ∀ t i j, (trials l u t).1 i j = 1 ∨ (trials l u t).1 i j = -1 := by
  intro t
  induction t with
  | zero => exact h
  | succ t ih =>
    intro i j
    have hstep : trials l u (t + 1)
        = trialAt l (u t) (t / l.cols) (t % l.cols) (trials l u t) := rfl
    rw [hstep]
    unfold trialAt
    split
    · show updateGrid (trials l u t).1 (t / l.cols) (t % l.cols)
          (-((trials l u t).1 (t / l.cols) (t % l.cols))) i j = 1
        ∨ updateGrid (trials l u t).1 (t / l.cols) (t % l.cols)
          (-((trials l u t).1 (t / l.cols) (t % l.cols))) i j = -1
      by_cases hij : i = t / l.cols ∧ j = t % l.cols
      · rcases ih (t / l.cols) (t % l.cols) with h1 | h1 <;>
          rw [hij.1, hij.2, updateGrid_self, h1] <;> simp
      · rw [updateGrid_other _ _ _ _ hij]
        exact ih i j
    · exact ih i j

theorem update_pm (l : Lattice) (u : ℕ → ℝ)
    (h : ∀ i j, l.spins i j = 1 ∨ l.spins i j = -1) :
    ∀ i j, (l.update u).spins i j = 1 ∨ (l.update u).spins i j = -1 :=
  trials_pm l u h (l.rows * l.cols)

theorem updateN_pm (U : ℕ → ℕ → ℝ) (k : ℕ) (l : Lattice)
    (h : ∀ i j, l.spins i j = 1 ∨ l.spins i j = -1) :
    ∀ i j, (Lattice.updateN U k l).spins i j = 1
      ∨ (Lattice.updateN U k l).spins i j = -1 := by
  induction k with
  | zero => exact h
  | succ k ih => exact update_pm _ (U k) ih

/-! ### Construction lemmas -/

theorem mkLattice_ok (rows cols : ℤ) (temp jr jc field : ℝ) (st : String)
    (rand : ℕ → ℕ → Bool) (h : ¬(rows ≤ 0 ∨ cols ≤ 0 ∨ temp ≤ 0)) :
    mkLattice rows cols temp jr jc field st rand
      = Except.ok (mkRaw rows.toNat cols.toNat temp jr jc field st rand) := by
  unfold mkLattice
  rw [if_neg h]

theorem mkLattice_err (rows cols : ℤ) (temp jr jc field : ℝ) (st : String)
    (rand : ℕ → ℕ → Bool) (h : rows ≤ 0 ∨ cols ≤ 0 ∨ temp ≤ 0) :
    mkLattice rows cols temp jr jc field st rand
      = Except.error InvalidConfiguration.invalid := by
  unfold mkLattice
  rw [if_pos h]

theorem mkLattice_ok_inv {rows cols : ℤ} {temp jr jc field : ℝ} {st : String}
    {rand : ℕ → ℕ → Bool} {l : Lattice}
    (h : mkLattice rows cols temp jr jc field st rand = Except.ok l) :
    ¬(rows ≤ 0 ∨ cols ≤ 0 ∨ temp ≤ 0)
      ∧ l = mkRaw rows.toNat cols.toNat temp jr jc field st rand := by
  by_cases hcond : rows ≤ 0 ∨ cols ≤ 0 ∨ temp ≤ 0
  · rw [mkLattice_err rows cols temp jr jc field st rand hcond] at h
    exact absurd h (by simp)
  · rw [mkLattice_ok rows cols temp jr jc field st rand hcond] at h
    injection h with h2
    exact ⟨hcond, h2.symm⟩

theorem mkIsing_ok (rows cols : ℤ) (temp jr jc field : ℝ) (st : String)
    (rand : ℕ → ℕ → Bool) (h : ¬(rows ≤ 0 ∨ cols ≤ 0 ∨ temp ≤ 0)) :
    mkIsing rows cols temp jr jc field st rand
      = Except.ok
          { lattice := mkRaw rows.toNat cols.toNat temp jr jc field st rand
            _init_state :=
              if st = "up" then "up" else if st = "down" then "down" else "random"
            _energy := (mkRaw rows.toNat cols.toNat temp jr jc field st rand).energy
            _mag_mom := (mkRaw rows.toNat cols.toNat temp jr jc field st rand).mag_mom
            mean_energy_hist := []
            magnet_hist := []
            specific_heat_hist := []
            susceptibility_hist := [] } := by
  unfold mkIsing
  rw [mkLattice_ok rows cols temp jr jc field st rand h]

theorem mkIsing_ok_inv {rows cols : ℤ} {temp jr jc field : ℝ} {st : String}
    {rand : ℕ → ℕ → Bool} {I : Ising}
    (h : mkIsing rows cols temp jr jc field st rand = Except.ok I) :
    ¬(rows ≤ 0 ∨ cols ≤ 0 ∨ temp ≤ 0)
      ∧ I = { lattice := mkRaw rows.toNat cols.toNat temp jr jc field st rand
              _init_state :=
                if st = "up" then "up" else if st = "down" then "down" else "random"
              _energy := (mkRaw rows.toNat cols.toNat temp jr jc field st rand).energy
              _mag_mom := (mkRaw rows.toNat cols.toNat temp jr jc field st rand).mag_mom
              mean_energy_hist := []
              magnet_hist := []
              specific_heat_hist := []
              susceptibility_hist := [] } := by
  by_cases hcond : rows ≤ 0 ∨ cols ≤ 0 ∨ temp ≤ 0
  · unfold mkIsing at h
    rw [mkLattice_err rows cols temp jr jc field st rand hcond] at h
    exact absurd h (by simp)
  · rw [mkIsing_ok rows cols temp jr jc field st rand hcond] at h
    injection h with h2
    exact ⟨hcond, h2.symm⟩

/-! ### Accumulator bookkeeping of the sweep -/

theorem update_eSum (l : Lattice) (u : ℕ → ℝ) :
    (l.update u).eSum = l.eSum + (l.update u).energy := rfl

theorem update_e2Sum (l : Lattice) (u : ℕ → ℝ) :
    (l.update u).e2Sum = l.e2Sum + (l.update u).energy ^ 2 := rfl

theorem update_mSum (l : Lattice) (u : ℕ → ℝ) :
    (l.update u).mSum = l.mSum + (l.update u).mag_mom := rfl

theorem update_m2Sum (l : Lattice) (u : ℕ → ℝ) :
    (l.update u).m2Sum = l.m2Sum + (l.update u).mag_mom ^ 2 := rfl

theorem updateN_count (U : ℕ → ℕ → ℝ) (k : ℕ) (l : Lattice) :
    (Lattice.updateN U k l).count = l.count + k := by
  induction k with
  | zero => rfl
  | succ k ih =>
    show (Lattice.updateN U k l).count + 1 = l.count + (k + 1)
    omega

theorem updateN_eSum (U : ℕ → ℕ → ℝ) (k : ℕ) (l : Lattice) :
    (Lattice.updateN U k l).eSum
      = l.eSum + ∑ n in Finset.range k, (Lattice.updateN U (n + 1) l).energy := by
  induction k with
  | zero => simp [Lattice.updateN]
  | succ k ih =>
    rw [Finset.sum_range_succ]
    show ((Lattice.updateN U k l).update (U k)).eSum = _
    rw [update_eSum, ih]
    have he : ((Lattice.updateN U k l).update (U k)).energy
        = (Lattice.updateN U (k + 1) l).energy := rfl
    rw [he]
    ring

theorem updateN_e2Sum (U : ℕ → ℕ → ℝ) (k : ℕ) (l : Lattice) :
    (Lattice.updateN U k l).e2Sum
      = l.e2Sum + ∑ n in Finset.range k, (Lattice.updateN U (n + 1) l).energy ^ 2 := by
  induction k with
  | zero => simp [Lattice.updateN]
  | succ k ih =>
    rw [Finset.sum_range_succ]
    show ((Lattice.updateN U k l).update (U k)).e2Sum = _
    rw [update_e2Sum, ih]
    have he : ((Lattice.updateN U k l).update (U k)).energy
        = (Lattice.updateN U (k + 1) l).energy := rfl
    rw [he]
    ring

theorem updateN_mSum (U : ℕ → ℕ → ℝ) (k : ℕ) (l : Lattice) :
    (Lattice.updateN U k l).mSum
      = l.mSum + ∑ n in Finset.range k, (Lattice.updateN U (n + 1) l).mag_mom := by
  induction k with
  | zero => simp [Lattice.updateN]
  | succ k ih =>
    rw [Finset.sum_range_succ]
    show ((Lattice.updateN U k l).update (U k)).mSum = _
    rw [update_mSum, ih]
    have he : ((Lattice.updateN U k l).update (U k)).mag_mom
        = (Lattice.updateN U (k + 1) l).mag_mom := rfl
    rw [he]
    ring

theorem updateN_m2Sum (U : ℕ → ℕ → ℝ) (k : ℕ) (l : Lattice) :
    (Lattice.updateN U k l).m2Sum
      = l.m2Sum + ∑ n in Finset.range k, (Lattice.updateN U (n + 1) l).mag_mom ^ 2 := by
  induction k with
  | zero => simp [Lattice.updateN]
  | succ k ih =>
    rw [Finset.sum_range_succ]
    show ((Lattice.updateN U k l).update (U k)).m2Sum = _
    rw [update_m2Sum, ih]
    have he : ((Lattice.updateN U k l).update (U k)).mag_mom
        = (Lattice.updateN U (k + 1) l).mag_mom := rfl
    rw [he]
    ring

/-! ### Driver-level bookkeeping -/

theorem ising_update_gen (I : Ising) (u : ℕ → ℝ) : (I.update u).gen = I.gen + 1 := rfl

theorem ising_updateN_gen (U : ℕ → ℕ → ℝ) (k : ℕ) (I : Ising) :
    (Ising.updateN U k I).gen = I.gen + k := by
  induction k with
  | zero => rfl
  | succ k ih =>
    show (Ising.updateN U k I).gen + 1 = I.gen + (k + 1)
    omega

theorem ising_update_cached (I : Ising) (u : ℕ → ℝ) :
    (I.update u)._energy = I._energy ∧ (I.update u)._mag_mom = I._mag_mom :=
  ⟨rfl, rfl⟩

theorem ising_updateN_cached (U : ℕ → ℕ → ℝ) (k : ℕ) (I : Ising) :
    (Ising.updateN U k I)._energy = I._energy
      ∧ (Ising.updateN U k I)._mag_mom = I._mag_mom := by
  induction k with
  | zero => exact ⟨rfl, rfl⟩
  | succ k ih => exact ih

/-! ### A concrete 1×1 run, used to instantiate the theorems below -/

def exRand : ℕ → ℕ → Bool := fun _ _ => true

noncomputable def exU : ℕ → ℝ := fun _ => 0

noncomputable def exUU : ℕ → ℕ → ℝ := fun _ _ => 0

noncomputable def exL : Lattice := mkRaw 1 1 1 1 1 0 "up" exRand

theorem exL_spins : exL.spins = fun _ _ => (1 : ℤ) := by
  show initGrid "up" exRand = _
  unfold initGrid
  rw [if_pos rfl]

theorem exL_energy : exL.energy = -2 := by
  show hamiltonian 1 1 1 1 0 (initGrid "up" exRand) = -2
  have hg : initGrid "up" exRand = fun _ _ => (1 : ℤ) := exL_spins
  rw [hg]
  simp [hamiltonian, hamTerm, gridSum, Finset.range_one,
    Finset.singleton_product_singleton]
  norm_num

theorem exL_mag : exL.mag_mom = 1 := by
  show gridSum 1 1 (initGrid "up" exRand) = 1
  have hg : initGrid "up" exRand = fun _ _ => (1 : ℤ) := exL_spins
  rw [hg]
  simp [gridSum, Finset.range_one, Finset.singleton_product_singleton]

theorem exL_j1 : exL.j.1 = 1 := rfl

theorem exL_j2 : exL.j.2 = 1 := rfl

theorem exL_field : exL.field = 0 := rfl

theorem exL_dE : dE exL.rows exL.cols exL.j.1 exL.j.2 exL.field exL.spins 0 0 = 8 := by
  rw [exL_j1, exL_j2, exL_field, exL_spins]
  simp [dE, nbrSum]
  norm_num

theorem exL_trial : trials exL exU 1
    = (updateGrid exL.spins 0 0 (-1), exL.energy + 8, exL.mag_mom - 2) := by
  have ht1 : trials exL exU 1
      = trialAt exL (exU 0) 0 0 (exL.spins, exL.energy, exL.mag_mom) := rfl
  rw [ht1]
  unfold trialAt
  dsimp only
  rw [exL_dE]
  have hU : exU 0 = 0 := rfl
  rw [hU]
  rw [if_pos (Or.inr (Real.exp_pos (-(8 : ℝ) / exL.temp)))]
  have hs00 : exL.spins 0 0 = 1 := by rw [exL_spins]
  rw [hs00]
  norm_num

theorem exL_upd_energy : (exL.update exU).energy = 6 := by
  show (trials exL exU 1).2.1 = 6
  rw [exL_trial, exL_energy]
  norm_num

theorem exL_upd_spins : (exL.update exU).spins = updateGrid exL.spins 0 0 (-1) := by
  show (trials exL exU 1).1 = _
  rw [exL_trial]

theorem exL_upd_ham : hamiltonian 1 1 1 1 0 ((exL.update exU).spins) = -2 := by
  rw [exL_upd_spins]
  simp [hamiltonian, hamTerm, gridSum, Finset.range_one,
    Finset.singleton_product_singleton, updateGrid]
  norm_num

theorem mk_exL : mkLattice 1 1 1 1 1 0 "up" exRand = Except.ok exL :=
  mkLattice_ok 1 1 1 1 1 0 "up" exRand (by norm_num)

noncomputable def exI : Ising :=
  { lattice := exL
    _init_state := "up"
    _energy := exL.energy
    _mag_mom := exL.mag_mom
    mean_energy_hist := []
    magnet_hist := []
    specific_heat_hist := []
    susceptibility_hist := [] }

theorem mk_exI : mkIsing 1 1 1 1 1 0 "up" exRand = Except.ok exI := by
  rw [mkIsing_ok 1 1 1 1 1 0 "up" exRand (by norm_num)]
  rfl

theorem updateN_j (U : ℕ → ℕ → ℝ) (k : ℕ) (l : Lattice) :
    (Lattice.updateN U k l).j = l.j := by
  induction k with
  | zero => rfl
  | succ k ih => exact ih

theorem updateN_field (U : ℕ → ℕ → ℝ) (k : ℕ) (l : Lattice) :
    (Lattice.updateN U k l).field = l.field := by
  induction k with
  | zero => rfl
  | succ k ih => exact ih

theorem mkRaw_count (r c : ℕ) (temp jr jc field : ℝ) (st : String)
    (rand : ℕ → ℕ → Bool) : (mkRaw r c temp jr jc field st rand).count = 1 := rfl

theorem mkRaw_eSum (r c : ℕ) (temp jr jc field : ℝ) (st : String)
    (rand : ℕ → ℕ → Bool) :
    (mkRaw r c temp jr jc field st rand).eSum
      = (mkRaw r c temp jr jc field st rand).energy := rfl

theorem mkRaw_e2Sum (r c : ℕ) (temp jr jc field : ℝ) (st : String)
    (rand : ℕ → ℕ → Bool) :
    (mkRaw r c temp jr jc field st rand).e2Sum
      = (mkRaw r c temp jr jc field st rand).energy ^ 2 := rfl

theorem mkRaw_mSum (r c : ℕ) (temp jr jc field : ℝ) (st : String)
    (rand : ℕ → ℕ → Bool) :
    (mkRaw r c temp jr jc field st rand).mSum
      = (mkRaw r c temp jr jc field st rand).mag_mom := rfl

theorem mkRaw_m2Sum (r c : ℕ) (temp jr jc field : ℝ) (st : String)
    (rand : ℕ → ℕ → Bool) :
    (mkRaw r c temp jr jc field st rand).m2Sum
      = (mkRaw r c temp jr jc field st rand).mag_mom ^ 2 := rfl

noncomputable def exL22 : Lattice := mkRaw 2 2 1 1 1 0 "up" exRand

theorem mk_exL22 : mkLattice 2 2 1 1 1 0 "up" exRand = Except.ok exL22 :=
  mkLattice_ok 2 2 1 1 1 0 "up" exRand (by norm_num)

/-! ### The claims -/

/-- C1: in every trial move of a sweep on the cell with current spin `s`, the
energy change is computed as `ΔE = 2·s·(coupling-weighted sum of the four
periodic neighbours + field)`, and the spin is flipped (the move accepted) iff
`ΔE ≤ 0` or the single uniform draw of that trial is `< exp (-ΔE / temp)`. -/
theorem claim_C1_metropolis_trial (l : Lattice) (u : ℕ → ℝ) (t : ℕ)
    (hpm : (trials l u t).1 (t / l.cols) (t % l.cols) = 1
      ∨ (trials l u t).1 (t / l.cols) (t % l.cols) = -1) :
    (trials l u (t + 1)).1 (t / l.cols) (t % l.cols)
        = -((trials l u t).1 (t / l.cols) (t % l.cols))
      ↔ (2 * ((trials l u t).1 (t / l.cols) (t % l.cols) : ℝ)
            * (l.j.1 * (((trials l u t).1 ((t / l.cols + 1) % l.rows) (t % l.cols) : ℝ)
                  + ((trials l u t).1 ((t / l.cols + l.rows - 1) % l.rows) (t % l.cols) : ℝ))
              + l.j.2 * (((trials l u t).1 (t / l.cols) ((t % l.cols + 1) % l.cols) : ℝ)
                  + ((trials l u t).1 (t / l.cols) ((t % l.cols + l.cols - 1) % l.cols) : ℝ))
              + l.field) ≤ 0
        ∨ u t < Real.exp (-(2 * ((trials l u t).1 (t / l.cols) (t % l.cols) : ℝ)
            * (l.j.1 * (((trials l u t).1 ((t / l.cols + 1) % l.rows) (t % l.cols) : ℝ)
                  + ((trials l u t).1 ((t / l.cols + l.rows - 1) % l.rows) (t % l.cols) : ℝ))
              + l.j.2 * (((trials l u t).1 (t / l.cols) ((t % l.cols + 1) % l.cols) : ℝ)
                  + ((trials l u t).1 (t / l.cols) ((t % l.cols + l.cols - 1) % l.cols) : ℝ))
              + l.field)) / l.temp)) := by
  have hform : 2 * ((trials l u t).1 (t / l.cols) (t % l.cols) : ℝ)
        * (l.j.1 * (((trials l u t).1 ((t / l.cols + 1) % l.rows) (t % l.cols) : ℝ)
              + ((trials l u t).1 ((t / l.cols + l.rows - 1) % l.rows) (t % l.cols) : ℝ))
          + l.j.2 * (((trials l u t).1 (t / l.cols) ((t % l.cols + 1) % l.cols) : ℝ)
              + ((trials l u t).1 (t / l.cols) ((t % l.cols + l.cols - 1) % l.cols) : ℝ))
          + l.field)
      = dE l.rows l.cols l.j.1 l.j.2 l.field (trials l u t).1 (t / l.cols) (t % l.cols) := by
    unfold dE nbrSum
    ring
  rw [hform]
  have hstep : trials l u (t + 1)
      = trialAt l (u t) (t / l.cols) (t % l.cols) (trials l u t) := rfl
  rw [hstep]
  unfold trialAt
  split
  next hacc => exact iff_of_true (updateGrid_self _ _ _ _) hacc
  next hacc =>
    refine iff_of_false ?_ hacc
    intro hq
    rcases hpm with h1 | h1 <;> rw [h1] at hq <;> exact absurd hq (by decide)

/-- C1 witness: in the concrete 1×1 run, trial 0 flips the spin, and the
theorem's acceptance condition holds there. -/
theorem claim_C1_witness :
    (trials exL exU 1).1 0 0 = -((trials exL exU 0).1 0 0) :=
  (claim_C1_metropolis_trial exL exU 0 (Or.inl rfl)).mpr (Or.inr (Real.exp_pos _))

/-- C2: on any validly constructed lattice (any initialization mode) and after
any number of sweeps, every cell of the spin grid is exactly +1 or -1. -/
theorem claim_C2_spins_pm (rows cols : ℤ) (temp jr jc field : ℝ) (st : String)
    (rand : ℕ → ℕ → Bool) (l : Lattice)
    (h : mkLattice rows cols temp jr jc field st rand = Except.ok l)
    (U : ℕ → ℕ → ℝ) (k i j : ℕ) :
    (Lattice.updateN U k l).spins i j = 1 ∨ (Lattice.updateN U k l).spins i j = -1 := by
  obtain ⟨-, hl⟩ := mkLattice_ok_inv h
  subst hl
  exact updateN_pm U k _ (fun i j => initGrid_pm st rand i j) i j

/-- C2 witness: the concrete 1×1 lattice after one sweep still holds a spin of
±1 at cell (0,0). -/
theorem claim_C2_witness :
    (Lattice.updateN exUU 1 exL).spins 0 0 = 1
      ∨ (Lattice.updateN exUU 1 exL).spins 0 0 = -1 :=
  claim_C2_spins_pm 1 1 1 1 1 0 "up" exRand exL mk_exL exUU 1 0 0

/-- C3: the generation counter is 0 at construction, and after `k` update calls
it equals the initial generation plus `k` (so it increases by exactly 1 per
completed sweep and never decreases). -/
theorem claim_C3_generation :
    (∀ (rows cols : ℤ) (temp jr jc field : ℝ) (st : String) (rand : ℕ → ℕ → Bool)
        (I : Ising),
        mkIsing rows cols temp jr jc field st rand = Except.ok I → I.gen = 0)
    ∧ (∀ (U : ℕ → ℕ → ℝ) (k : ℕ) (I : Ising),
        (Ising.updateN U k I).gen = I.gen + k) := by
  constructor
  · intro rows cols temp jr jc field st rand I h
    obtain ⟨-, hI⟩ := mkIsing_ok_inv h
    subst hI
    rfl
  · exact ising_updateN_gen

/-- C3 witness: the concrete driver starts at generation 0 and reaches
generation 2 after two updates. -/
theorem claim_C3_witness :
    exI.gen = 0 ∧ (Ising.updateN exUU 2 exI).gen = exI.gen + 2 :=
  ⟨claim_C3_generation.1 1 1 1 1 1 0 "up" exRand exI mk_exI,
   claim_C3_generation.2 exUU 2 exI⟩

/-- C6: construction fails with `InvalidConfiguration` iff some dimension is
≤ 0 or the temperature is ≤ 0; exactly otherwise a lattice is produced. -/
theorem claim_C6_invalid_configuration (rows cols : ℤ) (temp jr jc field : ℝ)
    (st : String) (rand : ℕ → ℕ → Bool) :
    ((∃ l, mkLattice rows cols temp jr jc field st rand = Except.ok l)
        ↔ ¬(rows ≤ 0 ∨ cols ≤ 0 ∨ temp ≤ 0))
    ∧ (mkLattice rows cols temp jr jc field st rand
          = Except.error InvalidConfiguration.invalid
        ↔ (rows ≤ 0 ∨ cols ≤ 0 ∨ temp ≤ 0)) := by
  by_cases hcond : rows ≤ 0 ∨ cols ≤ 0 ∨ temp ≤ 0
  · rw [mkLattice_err _ _ _ _ _ _ _ _ hcond]
    refine ⟨⟨?_, ?_⟩, iff_of_true rfl hcond⟩
    · rintro ⟨l, hl⟩
      exact absurd hl (by simp)
    · intro hn
      exact absurd hcond hn
  · rw [mkLattice_ok _ _ _ _ _ _ _ _ hcond]
    refine ⟨iff_of_true ⟨_, rfl⟩ hcond, ⟨?_, ?_⟩⟩
    · intro hq
      exact absurd hq (by simp)
    · intro hq
      exact absurd hq hcond

/-- C6 witness: a construction with zero rows fails with the error, and the
concrete valid construction succeeds. -/
theorem claim_C6_witness :
    mkLattice 0 1 1 1 1 0 "up" exRand = Except.error InvalidConfiguration.invalid
    ∧ (∃ l, mkLattice 1 1 1 1 1 0 "up" exRand = Except.ok l) :=
  ⟨(claim_C6_invalid_configuration 0 1 1 1 1 0 "up" exRand).2.mpr (Or.inl (by norm_num)),
   (claim_C6_invalid_configuration 1 1 1 1 1 0 "up" exRand).1.mpr (by norm_num)⟩

/-- C7: each driver update appends the four estimator values of the current
(pre-sweep) lattice state to the driver-owned history lists, and only then
advances the lattice by one sweep. -/
theorem claim_C7_update_order (I : Ising) (u : ℕ → ℝ) :
    (I.update u).mean_energy_hist = I.mean_energy_hist ++ [I.lattice.mean_energy]
    ∧ (I.update u).magnet_hist = I.magnet_hist ++ [I.lattice.magnet]
    ∧ (I.update u).specific_heat_hist
        = I.specific_heat_hist ++ [I.lattice.specific_heat]
    ∧ (I.update u).susceptibility_hist
        = I.susceptibility_hist ++ [I.lattice.susceptibility]
    ∧ (I.update u).lattice = I.lattice.update u :=
  ⟨rfl, rfl, rfl, rfl, rfl⟩

/-- C7 witness: on the concrete driver instance one update appends the four
current estimator values and advances the lattice. -/
theorem claim_C7_witness :
    (exI.update exU).mean_energy_hist = [exI.lattice.mean_energy]
    ∧ (exI.update exU).lattice = exI.lattice.update exU :=
  ⟨(claim_C7_update_order exI exU).1, (claim_C7_update_order exI exU).2.2.2.2⟩

/-- C4 counterexample: the 1×1 lattice with couplings (1,1), field 0, temp 1,
all-up start is validly constructed, yet after one sweep (draw 0, so the move
is accepted) the incrementally maintained energy is 6 while the full-scan
Hamiltonian of the final grid is -2: the claim fails for a validly constructed
lattice with a dimension of 1, where the ΔE formula counts the cell itself as
its own neighbour while the Hamiltonian's self-bond is constant. -/
theorem claim_C4_counterexample :
    mkLattice 1 1 1 1 1 0 "up" exRand = Except.ok exL
    ∧ (exL.update exU).energy = 6
    ∧ hamiltonian 1 1 1 1 0 ((exL.update exU).spins) = -2
    ∧ (exL.update exU).energy ≠ hamiltonian 1 1 1 1 0 ((exL.update exU).spins) := by
  refine ⟨mk_exL, exL_upd_energy, exL_upd_ham, ?_⟩
  rw [exL_upd_energy, exL_upd_ham]
  norm_num

/-- C4 (amended): for every validly constructed lattice with at least 2 rows
and at least 2 columns, after any finite sequence of sweeps the incrementally
maintained energy and magnetization equal the full from-scratch Hamiltonian
and spin sum over the final grid (exactly, in the real-number model). -/
theorem claim_C4_amended (rows cols : ℤ) (temp jr jc field : ℝ) (st : String)
    (rand : ℕ → ℕ → Bool) (l : Lattice)
    (h : mkLattice rows cols temp jr jc field st rand = Except.ok l)
    (hr : 2 ≤ rows) (hc : 2 ≤ cols) (U : ℕ → ℕ → ℝ) (k : ℕ) :
    (Lattice.updateN U k l).energy
        = hamiltonian l.rows l.cols l.j.1 l.j.2 l.field (Lattice.updateN U k l).spins
    ∧ (Lattice.updateN U k l).mag_mom
        = gridSum l.rows l.cols (Lattice.updateN U k l).spins := by
  obtain ⟨-, hl⟩ := mkLattice_ok_inv h
  subst hl
  have hr' : 2 ≤ (mkRaw rows.toNat cols.toNat temp jr jc field st rand).rows := by
    show 2 ≤ rows.toNat
    omega
  have hc' : 2 ≤ (mkRaw rows.toNat cols.toNat temp jr jc field st rand).cols := by
    show 2 ≤ cols.toNat
    omega
  have hcons := updateN_consistent U k _ hr' hc'
    (mkRaw_consistent rows.toNat cols.toNat temp jr jc field st rand)
  obtain ⟨hE, hM⟩ := hcons
  rw [updateN_rows, updateN_cols, updateN_j, updateN_field] at hE
  rw [updateN_rows, updateN_cols] at hM
  exact ⟨hE, hM⟩

/-- C4 witness: the concrete valid 2×2 lattice, after one sweep, has its
incremental energy and magnetization equal to the recomputed values. -/
theorem claim_C4_witness :
    (Lattice.updateN exUU 1 exL22).energy
        = hamiltonian exL22.rows exL22.cols exL22.j.1 exL22.j.2 exL22.field
            (Lattice.updateN exUU 1 exL22).spins
    ∧ (Lattice.updateN exUU 1 exL22).mag_mom
        = gridSum exL22.rows exL22.cols (Lattice.updateN exUU 1 exL22).spins :=
  claim_C4_amended 2 2 1 1 1 0 "up" exRand exL22 mk_exL22 (by norm_num) (by norm_num)
    exUU 1

/-- C5: on every validly constructed lattice, after any number of sweeps the
fluctuation estimators are exactly `(⟨E²⟩ − ⟨E⟩²) / (N · temp²)` and
`(⟨M²⟩ − ⟨M⟩²) / (N · temp)` over the `k + 1` unnormalized per-generation
samples (generation 0 included), with `N = rows · cols`; queried immediately
after construction (a single sample) both return exactly 0. -/
theorem claim_C5_estimators (rows cols : ℤ) (temp jr jc field : ℝ) (st : String)
    (rand : ℕ → ℕ → Bool) (l : Lattice)
    (h : mkLattice rows cols temp jr jc field st rand = Except.ok l)
    (U : ℕ → ℕ → ℝ) (k : ℕ) :
    (Lattice.updateN U k l).specific_heat
        = ((∑ n in Finset.range (k + 1), (Lattice.updateN U n l).energy ^ 2)
              / ((k : ℝ) + 1)
            - ((∑ n in Finset.range (k + 1), (Lattice.updateN U n l).energy)
              / ((k : ℝ) + 1)) ^ 2)
          / (((l.rows : ℝ) * (l.cols : ℝ)) * l.temp ^ 2)
    ∧ (Lattice.updateN U k l).susceptibility
        = ((∑ n in Finset.range (k + 1), (Lattice.updateN U n l).mag_mom ^ 2)
              / ((k : ℝ) + 1)
            - ((∑ n in Finset.range (k + 1), (Lattice.updateN U n l).mag_mom)
              / ((k : ℝ) + 1)) ^ 2)
          / (((l.rows : ℝ) * (l.cols : ℝ)) * l.temp)
    ∧ l.specific_heat = 0 ∧ l.susceptibility = 0 := by
  obtain ⟨-, hl⟩ := mkLattice_ok_inv h
  subst hl
  refine ⟨?_, ?_, ?_, ?_⟩
  · unfold Lattice.specific_heat
    rw [updateN_count, updateN_e2Sum, updateN_eSum, updateN_rows, updateN_cols,
      updateN_temp, mkRaw_count, mkRaw_e2Sum, mkRaw_eSum]
    simp only [Finset.sum_range_succ']
    have h0 : Lattice.updateN U 0 (mkRaw rows.toNat cols.toNat temp jr jc field st rand)
        = mkRaw rows.toNat cols.toNat temp jr jc field st rand := rfl
    rw [h0]
    push_cast
    ring
  · unfold Lattice.susceptibility
    rw [updateN_count, updateN_m2Sum, updateN_mSum, updateN_rows, updateN_cols,
      updateN_temp, mkRaw_count, mkRaw_m2Sum, mkRaw_mSum]
    simp only [Finset.sum_range_succ']
    have h0 : Lattice.updateN U 0 (mkRaw rows.toNat cols.toNat temp jr jc field st rand)
        = mkRaw rows.toNat cols.toNat temp jr jc field st rand := rfl
    rw [h0]
    push_cast
    ring
  · unfold Lattice.specific_heat
    rw [mkRaw_count, mkRaw_e2Sum, mkRaw_eSum]
    push_cast
    rw [div_one, div_one, sub_self, zero_div]
  · unfold Lattice.susceptibility
    rw [mkRaw_count, mkRaw_m2Sum, mkRaw_mSum]
    push_cast
    rw [div_one, div_one, sub_self, zero_div]

/-- C5 witness: on the concrete fresh 1×1 lattice both estimators are 0. -/
theorem claim_C5_witness : exL.specific_heat = 0 ∧ exL.susceptibility = 0 :=
  ⟨(claim_C5_estimators 1 1 1 1 1 0 "up" exRand exL mk_exL exUU 0).2.2.1,
   (claim_C5_estimators 1 1 1 1 1 0 "up" exRand exL mk_exL exUU 0).2.2.2⟩

/-- C8: two lattices constructed with identical parameters and the identical
random sources produce identical states (in particular identical spin
trajectories) over any number of sweeps driven by the same draw streams. -/
theorem claim_C8_determinism (rows cols : ℤ) (temp jr jc field : ℝ) (st : String)
    (rand : ℕ → ℕ → Bool) (U : ℕ → ℕ → ℝ) (l1 l2 : Lattice)
    (h1 : mkLattice rows cols temp jr jc field st rand = Except.ok l1)
    (h2 : mkLattice rows cols temp jr jc field st rand = Except.ok l2) (k : ℕ) :
    (Lattice.updateN U k l1).spins = (Lattice.updateN U k l2).spins
    ∧ Lattice.updateN U k l1 = Lattice.updateN U k l2 := by
  obtain ⟨-, e1⟩ := mkLattice_ok_inv h1
  obtain ⟨-, e2⟩ := mkLattice_ok_inv h2
  subst e1
  subst e2
  exact ⟨rfl, rfl⟩

/-- C8 witness: two identically parameterized constructions of the concrete
1×1 lattice agree after three sweeps. -/
theorem claim_C8_witness :
    (Lattice.updateN exUU 3 exL).spins = (Lattice.updateN exUU 3 exL).spins :=
  (claim_C8_determinism 1 1 1 1 1 0 "up" exRand exUU exL exL mk_exL mk_exL 3).1

/-- C9: the private `_energy` and `_mag_mom` fields hold the construction-time
values and are never modified by `update`, while the public `energy` and
`mag_mom` properties always read the lattice's current values; after a sweep
that changes the energy the cached field differs from the property. -/
theorem claim_C9_cached_frame :
    (∀ (U : ℕ → ℕ → ℝ) (k : ℕ) (I : Ising),
        (Ising.updateN U k I)._energy = I._energy
        ∧ (Ising.updateN U k I)._mag_mom = I._mag_mom
        ∧ (Ising.updateN U k I).energy = (Ising.updateN U k I).lattice.energy
        ∧ (Ising.updateN U k I).mag_mom = (Ising.updateN U k I).lattice.mag_mom)
    ∧ (∀ (rows cols : ℤ) (temp jr jc field : ℝ) (st : String) (rand : ℕ → ℕ → Bool)
          (I : Ising), mkIsing rows cols temp jr jc field st rand = Except.ok I →
            I._energy = I.lattice.energy ∧ I._mag_mom = I.lattice.mag_mom)
    ∧ (exI.update exU)._energy ≠ (exI.update exU).energy := by
  refine ⟨?_, ?_, ?_⟩
  · intro U k I
    exact ⟨(ising_updateN_cached U k I).1, (ising_updateN_cached U k I).2, rfl, rfl⟩
  · intro rows cols temp jr jc field st rand I h
    obtain ⟨-, hI⟩ := mkIsing_ok_inv h
    subst hI
    exact ⟨rfl, rfl⟩
  · intro hq
    have hc1 : (exI.update exU)._energy = exL.energy := rfl
    have hc2 : (exI.update exU).energy = (exL.update exU).energy := rfl
    rw [hc1, hc2, exL_energy, exL_upd_energy] at hq
    exact absurd hq (by norm_num)

/-- C9 witness: at construction the cached fields agree with the properties on
the concrete driver instance. -/
theorem claim_C9_witness :
    exI._energy = exI.lattice.energy ∧ exI._mag_mom = exI.lattice.mag_mom :=
  claim_C9_cached_frame.2.1 1 1 1 1 1 0 "up" exRand exI mk_exI

/-- C10: for every `init_state` other than exactly "up" and "down", the driver
records `_init_state` as "random" (so the `init_state` property returns
"random") while the original value is passed unchanged to the lattice
constructor. -/
theorem claim_C10_init_state_fallback (rows cols : ℤ) (temp jr jc field : ℝ)
    (st : String) (rand : ℕ → ℕ → Bool) (h1 : st ≠ "up") (h2 : st ≠ "down") :
    mkIsing rows cols temp jr jc field st rand
        = Except.map (fun lat =>
            { lattice := lat
              _init_state := "random"
              _energy := lat.energy
              _mag_mom := lat.mag_mom
              mean_energy_hist := []
              magnet_hist := []
              specific_heat_hist := []
              susceptibility_hist := [] })
          (mkLattice rows cols temp jr jc field st rand)
    ∧ ∀ I, mkIsing rows cols temp jr jc field st rand = Except.ok I →
        I.init_state = "random" := by
  constructor
  · unfold mkIsing
    cases hmk : mkLattice rows cols temp jr jc field st rand with
    | error e => rfl
    | ok lat => simp [Except.map, if_neg h1, if_neg h2]
  · intro I h
    obtain ⟨-, hI⟩ := mkIsing_ok_inv h
    subst hI
    show (if st = "up" then "up" else if st = "down" then "down" else "random")
        = "random"
    rw [if_neg h1, if_neg h2]

noncomputable def exIfoo : Ising :=
  { lattice := mkRaw 1 1 1 1 1 0 "foo" exRand
    _init_state := "random"
    _energy := (mkRaw 1 1 1 1 1 0 "foo" exRand).energy
    _mag_mom := (mkRaw 1 1 1 1 1 0 "foo" exRand).mag_mom
    mean_energy_hist := []
    magnet_hist := []
    specific_heat_hist := []
    susceptibility_hist := [] }

theorem mk_exIfoo : mkIsing 1 1 1 1 1 0 "foo" exRand = Except.ok exIfoo := by
  rw [mkIsing_ok 1 1 1 1 1 0 "foo" exRand (by norm_num)]
  rfl

/-- C10 witness: constructing with the invalid mode "foo" records "random". -/
theorem claim_C10_witness : exIfoo.init_state = "random" :=
  (claim_C10_init_state_fallback 1 1 1 1 1 0 "foo" exRand (by decide) (by decide)).2
    exIfoo mk_exIfoo

end IsingModel
